import Mathlib

/-!
Verification development for the movie-recommendation pipeline in
`FilmOneriAraci.py`.

The Python source is shallowly embedded as follows.

* JSON objects returned by the metadata Gateway are modelled as Lean
  structures whose fields are `Option`-valued where the Python code accesses
  a key that may be absent: a `none` field stands for a missing key, and a
  Python `dict[key]` access (which raises `KeyError` when the key is absent)
  is modelled by `keyOf`, returning in the `Except Unit` monad.  Accesses
  written `dict.get(key, [])` in the source are modelled by `Option.getD`.
* Fallible Python functions are embedded as `Except Unit`-valued functions;
  `Except.error ()` models an exception escaping the function.
* The Gateway (the HTTP layer: `search_movie`, `get_movie_details`,
  `get_movie_credits`, `get_movie_keywords` and the popular-movies listing)
  is modelled as a structure of abstract response functions, one pipeline run
  at a time: `fetch_data_with_retry` returning `None` after exhausting
  retries is a `none` response.  Response payloads carry the fields the core
  reads (`results[].id/title`, `genres[].name`, `cast[].name`,
  `crew[].name/job`, `keywords[].name`).
* The TF-IDF vectorization and cosine-similarity step
  (`TfidfVectorizer.fit_transform` + `cosine_similarity`) is an external
  numeric library; its output row `cosine_sim[0]` is abstracted as a score
  assignment `sim : Nat → ℚ` supplied to the ranking logic, since the
  claims under verification quantify over all score values.
* Python's builtin stable `sorted(..., key=lambda x: x[1], reverse=True)`
  is modelled by a stable insertion sort into descending score order
  (`sortDesc`), and the slice `[:num_recommendations]` by `pySliceTo`,
  which implements Python slice semantics for both signs of the bound.
-/

/-- A JSON entry of shape `{name: ...}` (genre, cast member, keyword).
The field is `Option`-valued: `none` models a missing `name` key. -/
structure NameEntry where
  name : Option String
deriving DecidableEq

/-- A JSON crew entry of shape `{name: ..., job: ...}`; `none` models a
missing key. -/
structure CrewEntry where
  name : Option String
  job : Option String
deriving DecidableEq

/-- The movie-details record; the extractor only reads the `genres` key
(`movie_details.get('genres', [])`), which may be absent. -/
structure MovieDetails where
  genres : Option (List NameEntry)
deriving DecidableEq

/-- The movie-credits record with the `cast` and `crew` keys. -/
structure MovieCredits where
  cast : Option (List NameEntry)
  crew : Option (List CrewEntry)
deriving DecidableEq

/-- The movie-keywords record with the `keywords` key. -/
structure MovieKeywords where
  keywords : Option (List NameEntry)
deriving DecidableEq

/-- Python `d[key]`: yields the value when the key is present and raises
(`Except.error ()`) when it is absent. -/
def keyOf {α : Type} : Option α → Except Unit α
  | some a => Except.ok a
  | none => Except.error ()

/-- Python `s.lower().replace(" ", "")`: lowercase every character, then
delete every space character (replacing each occurrence of the
one-character pattern `" "` by the empty string deletes exactly the space
characters).  Case mapping is modelled on basic latin letters as in
`Char.toLower`. -/
def normalizeToken (s : String) : String :=
  ⟨(s.data.map Char.toLower).filter (fun c => c ≠ ' ')⟩

/-- Python `[c['name'] for c in crew if c['job'] == 'Director']`: walk the
crew left to right, read `c['job']` on every entry (raising when absent),
and read `c['name']` (raising when absent) on entries whose job is exactly
`"Director"`. -/
def directorNames : List CrewEntry → Except Unit (List String)
  | [] => Except.ok []
  | c :: rest =>
    match keyOf c.job with
    | Except.error e => Except.error e
    | Except.ok j =>
      if j = "Director" then
        match keyOf c.name with
        | Except.error e => Except.error e
        | Except.ok n =>
          match directorNames rest with
          | Except.error e => Except.error e
          | Except.ok ns => Except.ok (n :: ns)
      else directorNames rest

/-- Model of `extract_features(movie_details, movie_credits, movie_keywords)`:
collect genre names, the first three cast names, the first Director's name
(omitted when the raw name is falsy, i.e. the empty string), and keyword
names; normalize each and join with single spaces.  Missing top-level keys
default to empty lists; a missing key inside an inspected entry raises. -/
def extract_features (movie_details : MovieDetails) (movie_credits : MovieCredits)
    (movie_keywords : MovieKeywords) : Except Unit String :=
  match (movie_details.genres.getD []).mapM (fun g => keyOf g.name) with
  | Except.error e => Except.error e
  | Except.ok genres =>
  match ((movie_credits.cast.getD []).take 3).mapM (fun c => keyOf c.name) with
  | Except.error e => Except.error e
  | Except.ok cast =>
  match directorNames (movie_credits.crew.getD []) with
  | Except.error e => Except.error e
  | Except.ok directors =>
  match (movie_keywords.keywords.getD []).mapM (fun kw => keyOf kw.name) with
  | Except.error e => Except.error e
  | Except.ok keywords =>
    let director := directors.headD ""
    let features := genres.map normalizeToken ++ cast.map normalizeToken ++
      (if director = "" then [] else [normalizeToken director]) ++
      keywords.map normalizeToken
    Except.ok (String.intercalate " " features)

/-- The metadata Gateway, specialized to one pipeline run (one fixed user
query).  Each field is the (retried) response of the corresponding HTTP
call: `none` models `fetch_data_with_retry` returning `None` (or a falsy
response object), `search` carries the `results` list of the search
response as `(id, title)` pairs, and `popular` maps a page number to the
`results` list of that popular-listing page. -/
structure Gateway where
  search : Option (List (Int × String))
  details : Int → Option MovieDetails
  credits : Int → Option MovieCredits
  keywords : Int → Option MovieKeywords
  popular : Nat → Option (List (Int × String))

/-- Model of `search_movie`: when the response and its `results` list are truthy,
the first result's `(id, title)`; otherwise `(None, None)`. -/
def search_movie (gw : Gateway) : Option (Int × String) :=
  match gw.search with
  | some (r :: _) => some r
  | _ => none

/-- The `while len(all_movies) < max_search_results and page <= 500 // 20`
accumulation loop over popular-listing pages.  `page` starts at 1 and is
incremented only after a page with a truthy `results` list; any falsy
response breaks the loop.  The loop runs at most 25 iterations (`page <=
25`), which the `budget` parameter (initially 25, decremented in lockstep
with the page increment) expresses as structural recursion. -/
def collect_popular_go (gw : Gateway) (max_search_results : Nat)
    (acc : List (Int × String)) (page : Nat) : Nat → List (Int × String)
  | 0 => acc
  | budget + 1 =>
    if acc.length < max_search_results ∧ page ≤ 25 then
      match gw.popular page with
      | some (r :: rs) => collect_popular_go gw max_search_results (acc ++ r :: rs) (page + 1) budget
      | _ => acc
    else acc

/-- All popular-movie summaries accumulated by the paging loop. -/
def collect_popular (gw : Gateway) (max_search_results : Nat) : List (Int × String) :=
  collect_popular_go gw max_search_results [] 1 25

/-- Python `[m for m in all_movies if m['id'] != favorite_movie_id]`. -/
def candidate_pool (gw : Gateway) (max_search_results : Nat) (favorite_movie_id : Int) :
    List (Int × String) :=
  (collect_popular gw max_search_results).filter (fun m => m.1 ≠ favorite_movie_id)

/-- One row of the `movie_data` frame: `{'id': ..., 'title': ..., 'features': ...}`. -/
structure MovieData where
  id : Int
  title : String
  features : String
deriving DecidableEq

/-- The per-candidate loop of `get_recommendations`: for each summary,
fetch details/credits/keywords; when all three are truthy, extract the
feature text (an exception there escapes the loop) and keep the row when
the feature text is truthy.  Fetch failures skip the candidate. -/
def build_movie_data (gw : Gateway) : List (Int × String) → Except Unit (List MovieData)
  | [] => Except.ok []
  | (mid, mtitle) :: rest =>
    -- `if details and credits and keywords:` — a falsy response skips the
    -- candidate and the loop moves on.
    match gw.details mid with
    | none => build_movie_data gw rest
    | some d =>
      match gw.credits mid with
      | none => build_movie_data gw rest
      | some c =>
        match gw.keywords mid with
        | none => build_movie_data gw rest
        | some k =>
          match extract_features d c k with
          | Except.error e => Except.error e
          | Except.ok features =>
            match build_movie_data gw rest with
            | Except.error e => Except.error e
            | Except.ok mds =>
              Except.ok (if features = "" then mds else ⟨mid, mtitle, features⟩ :: mds)

/-- Model of `pd.concat([df_fav, df], ignore_index=True)`: the reference row at
index 0 followed by the candidate rows in fetch order. -/
def mkCorpus (fav : MovieData) (movie_data : List MovieData) : List MovieData :=
  fav :: movie_data

/-- Stable insertion of an `(index, score)` pair into a list sorted by
descending score: `p` is placed before the first entry whose score is
`≤ p`'s score, so among equal scores an element inserted later (which
`sortDesc` only does for elements appearing earlier in its input) comes
first. -/
def insertDesc (p : Nat × ℚ) : List (Nat × ℚ) → List (Nat × ℚ)
  | [] => [p]
  | q :: rest => if q.2 ≤ p.2 then p :: q :: rest else q :: insertDesc p rest

/-- Python `sorted(sim_scores, key=lambda x: x[1], reverse=True)`: Python's
builtin sort is specified to be stable, and `reverse=True` reverses the
comparison (not the output), so equal-score entries keep their original
relative order.  Modelled as a stable insertion sort into descending score
order. -/
def sortDesc : List (Nat × ℚ) → List (Nat × ℚ)
  | [] => []
  | p :: rest => insertDesc p (sortDesc rest)

/-- Python slice `l[:k]` for an `int` bound `k`: a non-negative bound keeps
the first `k` elements (all of them when `k ≥ len(l)`); a negative bound
keeps everything except the last `|k|` elements. -/
def pySliceTo {α : Type} (k : Int) (l : List α) : List α :=
  if 0 ≤ k then l.take k.toNat else l.take (l.length - (-k).toNat)

/-- Python `sorted(list(enumerate(cosine_sim[0]))[1:], key=lambda x: x[1],
reverse=True)` over a corpus of `n` rows: pair every row index with its
similarity score, drop index 0 (the reference row), and stably sort by
descending score. -/
def ranked_pairs (n : Nat) (sim : Nat → ℚ) : List (Nat × ℚ) :=
  sortDesc ((((List.range n).map (fun i => (i, sim i)))).drop 1)

/-- Model of `df['title'].iloc[i]`: a title lookup by row index, raising on an
out-of-range index. -/
def ilocTitle (titles : List String) (i : Nat) : Except Unit String :=
  match titles[i]? with
  | some t => Except.ok t
  | none => Except.error ()

/-- Lines 140–151 of the source: rank the corpus rows (whose titles are
given in row order, the reference at index 0) against the reference row.
The TF-IDF/cosine scores are abstracted as `sim`; the ranked indices are
sliced by `num_recommendations` and resolved to titles. -/
def rank (titles : List String) (sim : Nat → ℚ) (num_recommendations : Int) :
    Except Unit (List String) :=
  let sim_scores := ranked_pairs titles.length sim
  let recommended_indices := (pySliceTo num_recommendations sim_scores).map (fun p => p.1)
  recommended_indices.mapM (fun i => ilocTitle titles i)

/-- Model of `get_recommendations(favorite_movie_title, num_recommendations,
max_search_results)`.  The favorite title is absorbed into `gw.search`;
`sim` abstracts the cosine-similarity row of the vectorized corpus.  The
result is the returned title list, or `Except.error ()` when an exception
escapes. -/
def get_recommendations (gw : Gateway) (sim : Nat → ℚ) (num_recommendations : Int)
    (max_search_results : Nat) : Except Unit (List String) :=
  match search_movie gw with
  | none => Except.ok []
  | some (favorite_movie_id, favorite_movie_name) =>
    -- `if not favorite_movie_id`: an id of 0 is falsy in Python as well.
    if favorite_movie_id = 0 then Except.ok [] else
    -- `if not fav_details or not fav_credits or not fav_keywords: return []`
    match gw.details favorite_movie_id with
    | none => Except.ok []
    | some fd =>
    match gw.credits favorite_movie_id with
    | none => Except.ok []
    | some fc =>
    match gw.keywords favorite_movie_id with
    | none => Except.ok []
    | some fk =>
      match extract_features fd fc fk with
      | Except.error e => Except.error e
      | Except.ok favorite_features =>
        if favorite_features = "" then Except.ok [] else
        if candidate_pool gw max_search_results favorite_movie_id = [] then Except.ok [] else
        match build_movie_data gw (candidate_pool gw max_search_results favorite_movie_id) with
        | Except.error e => Except.error e
        | Except.ok movie_data =>
          if movie_data = [] then Except.ok [] else
          let df := mkCorpus ⟨favorite_movie_id, favorite_movie_name, favorite_features⟩ movie_data
          rank (df.map (fun m => m.title)) sim num_recommendations

/-- A details record conforming to the Gateway contract of §3/§4.4 of the
spec: every genre entry carries a `name`. -/
abbrev WFDetails (d : MovieDetails) : Prop :=
  ∀ g ∈ d.genres.getD [], g.name.isSome = true

/-- A credits record conforming to the Gateway contract: the inspected cast
entries (the first three) carry a `name`, and every crew entry carries a
`job` together with a `name` on `Director` entries. -/
abbrev WFCredits (c : MovieCredits) : Prop :=
  (∀ e ∈ (c.cast.getD []).take 3, e.name.isSome = true) ∧
  (∀ e ∈ c.crew.getD [], e.job.isSome = true ∧ (e.job = some "Director" → e.name.isSome = true))

/-- A keywords record conforming to the Gateway contract: every keyword
entry carries a `name`. -/
abbrev WFKeywords (k : MovieKeywords) : Prop :=
  ∀ e ∈ k.keywords.getD [], e.name.isSome = true

/-- A Gateway whose successful responses conform to the response shapes of
§3/§4.4 of the spec. -/
structure WFGateway (gw : Gateway) : Prop where
  details : ∀ i d, gw.details i = some d → WFDetails d
  credits : ∀ i c, gw.credits i = some c → WFCredits c
  keywords : ∀ i k, gw.keywords i = some k → WFKeywords k

/-- A small concrete Gateway exercising a full successful run: the search
resolves to movie 1, one popular page lists one candidate (movie 7), and
both movies have contract-conformant metadata. -/
def sampleGateway : Gateway where
  search := some [(1, "Fav")]
  details := fun i =>
    if i = 1 then some ⟨some [⟨some "Drama"⟩]⟩
    else if i = 7 then some ⟨some [⟨some "Action"⟩]⟩
    else none
  credits := fun i => if i = 1 ∨ i = 7 then some ⟨some [], some []⟩ else none
  keywords := fun i => if i = 1 ∨ i = 7 then some ⟨some []⟩ else none
  popular := fun p => if p = 1 then some [(7, "Cand")] else none

/-- A Gateway whose popular listing repeats the same movie id on two
consecutive pages. -/
def dupPagesGateway : Gateway where
  search := none
  details := fun _ => none
  credits := fun _ => none
  keywords := fun _ => none
  popular := fun p => if p = 1 ∨ p = 2 then some [(7, "A")] else none

lemma char_ofNat_valid_toNat {n : Nat} (h : n.isValidChar) : (Char.ofNat n).toNat = n := by
  simp [Char.ofNat, dif_pos h, Char.ofNatAux, Char.toNat, UInt32.toNat]

lemma isUpper_eq_decide (c : Char) :
    c.isUpper = decide (65 ≤ c.toNat ∧ c.toNat ≤ 90) := by
  simp only [Char.isUpper, Char.toNat, UInt32.le_def, BitVec.le_def, ge_iff_le,
    Bool.decide_and]
  have h65 : (UInt32.toBitVec 65).toNat = 65 := rfl
  have h90 : (UInt32.toBitVec 90).toNat = 90 := rfl
  rw [h65, h90]
  rfl

lemma toLower_isUpper_false (c : Char) : (Char.toLower c).isUpper = false := by
  rw [Char.toLower]
  by_cases h : c.toNat ≥ 65 ∧ c.toNat ≤ 90
  · rw [if_pos h, isUpper_eq_decide, char_ofNat_valid_toNat (Or.inl (by omega))]
    simp only [decide_eq_false_iff_not]
    omega
  · rw [if_neg h, isUpper_eq_decide]
    simp only [decide_eq_false_iff_not, Char.toNat] at h ⊢
    omega

lemma keyOf_some {α : Type} (a : α) : keyOf (some a) = Except.ok a := rfl

lemma keyOf_none {α : Type} : keyOf (none : Option α) = Except.error () := rfl

lemma except_ok_bind {α β : Type} (x : α) (f : α → Except Unit β) :
    (Except.ok x >>= f) = f x := rfl

lemma except_error_bind {α β : Type} (f : α → Except Unit β) :
    ((Except.error () : Except Unit α) >>= f) = Except.error () := rfl

lemma except_pure_eq_ok {α : Type} (x : α) : (pure x : Except Unit α) = Except.ok x := rfl

lemma mapM_name_ok (l : List NameEntry) (h : ∀ e ∈ l, e.name.isSome = true) :
    ∃ ns, (l.mapM fun e => keyOf e.name) = Except.ok ns := by
  induction l with
  | nil => exact ⟨[], rfl⟩
  | cons a as ih =>
    obtain ⟨nm, hnm⟩ := Option.isSome_iff_exists.mp (h a (List.mem_cons_self a as))
    obtain ⟨ns, hns⟩ := ih (fun e he => h e (List.mem_cons_of_mem a he))
    refine ⟨nm :: ns, ?_⟩
    rw [List.mapM_cons, hnm, keyOf_some, except_ok_bind, hns, except_ok_bind]
    rfl

lemma mapM_name_names {l : List NameEntry} {ns : List String}
    (hok : (l.mapM fun e => keyOf e.name) = Except.ok ns) :
    ∀ e ∈ l, ∀ nm, e.name = some nm → nm ∈ ns := by
  induction l generalizing ns with
  | nil => intro e he; cases he
  | cons a as ih =>
    rw [List.mapM_cons] at hok
    intro e he nm hnm
    cases hfa : a.name with
    | none =>
      rw [hfa, keyOf_none, except_error_bind] at hok
      cases hok
    | some nm0 =>
      rw [hfa, keyOf_some, except_ok_bind] at hok
      cases hmm : (as.mapM fun e => keyOf e.name) with
      | error err =>
        rw [hmm, except_error_bind] at hok
        cases hok
      | ok ns0 =>
        rw [hmm, except_ok_bind, except_pure_eq_ok] at hok
        have hns : ns = nm0 :: ns0 := (Except.ok.inj hok).symm
        subst hns
        rcases List.mem_cons.mp he with rfl | hmem
        · rw [hfa] at hnm
          exact (Option.some_inj.mp hnm) ▸ List.mem_cons_self _ _
        · exact List.mem_cons_of_mem _ (ih hmm e hmem nm hnm)

lemma directorNames_ok {l : List CrewEntry}
    (h : ∀ e ∈ l, e.job.isSome = true ∧ (e.job = some "Director" → e.name.isSome = true)) :
    ∃ ns, directorNames l = Except.ok ns := by
  induction l with
  | nil => exact ⟨[], rfl⟩
  | cons c rest ih =>
    obtain ⟨hj, hn⟩ := h c (List.mem_cons_self c rest)
    obtain ⟨j, hj2⟩ := Option.isSome_iff_exists.mp hj
    obtain ⟨ns, hns⟩ := ih (fun e he => h e (List.mem_cons_of_mem c he))
    by_cases hjd : j = "Director"
    · obtain ⟨n, hn2⟩ := Option.isSome_iff_exists.mp (hn (hjd ▸ hj2))
      refine ⟨n :: ns, ?_⟩
      rw [directorNames, hj2, keyOf_some]
      simp only [if_pos hjd, hn2, keyOf_some, hns]
    · refine ⟨ns, ?_⟩
      rw [directorNames, hj2, keyOf_some]
      simp only [if_neg hjd, hns]

lemma length_le_intercalate_go (s : String) (l : List String) (acc : String) :
    acc.length ≤ (String.intercalate.go acc s l).length := by
  induction l generalizing acc with
  | nil => exact Nat.le_refl _
  | cons a as ih =>
    have h1 : acc.length ≤ (acc ++ s ++ a).length := by
      rw [String.length_append, String.length_append]
      omega
    exact Nat.le_trans h1 (ih (acc ++ s ++ a))

lemma mem_length_le_intercalate_go (s : String) (l : List String) (acc t : String)
    (ht : t ∈ l) : t.length ≤ (String.intercalate.go acc s l).length := by
  induction l generalizing acc with
  | nil => cases ht
  | cons a as ih =>
    rcases List.mem_cons.mp ht with rfl | hmem
    · have h1 : t.length ≤ (acc ++ s ++ t).length := by
        rw [String.length_append, String.length_append]
        omega
      exact Nat.le_trans h1 (length_le_intercalate_go s as (acc ++ s ++ t))
    · rw [show String.intercalate.go acc s (a :: as) =
          String.intercalate.go (acc ++ s ++ a) s as from rfl]
      exact ih (acc ++ s ++ a) hmem

lemma string_length_zero {t : String} (h : t.length = 0) : t = "" := by
  cases t with
  | mk data =>
    cases data with
    | nil => rfl
    | cons a as => simp [String.length] at h

lemma intercalate_eq_empty {l : List String} (h : String.intercalate " " l = "") :
    ∀ t ∈ l, t = "" := by
  intro t ht
  cases l with
  | nil => cases ht
  | cons a as =>
    have hlen : (String.intercalate " " (a :: as)).length = 0 := by rw [h]; rfl
    rw [String.intercalate] at hlen
    rcases List.mem_cons.mp ht with rfl | hmem
    · have h2 := length_le_intercalate_go " " as t
      exact string_length_zero (by omega)
    · have h2 := mem_length_le_intercalate_go " " as a t hmem
      exact string_length_zero (by omega)

lemma mem_insertDesc {a p : Nat × ℚ} {l : List (Nat × ℚ)} :
    a ∈ insertDesc p l ↔ a = p ∨ a ∈ l := by
  induction l with
  | nil => simp [insertDesc]
  | cons q rest ih =>
    rw [insertDesc]
    split
    · simp [List.mem_cons]
    · rw [List.mem_cons, ih, List.mem_cons]
      tauto

lemma length_insertDesc (p : Nat × ℚ) (l : List (Nat × ℚ)) :
    (insertDesc p l).length = l.length + 1 := by
  induction l with
  | nil => rfl
  | cons q rest ih =>
    rw [insertDesc]
    split
    · simp
    · simp [ih]

lemma mem_sortDesc {a : Nat × ℚ} {l : List (Nat × ℚ)} : a ∈ sortDesc l ↔ a ∈ l := by
  induction l with
  | nil => simp [sortDesc]
  | cons p rest ih =>
    rw [sortDesc, mem_insertDesc, ih, List.mem_cons]

lemma length_sortDesc (l : List (Nat × ℚ)) : (sortDesc l).length = l.length := by
  induction l with
  | nil => rfl
  | cons p rest ih =>
    rw [sortDesc, length_insertDesc, ih]
    rfl

lemma pairwise_insertDesc {p : Nat × ℚ} {l : List (Nat × ℚ)}
    (hl : l.Pairwise (fun a b => b.2 ≤ a.2 ∧ (a.2 = b.2 → a.1 < b.1)))
    (hp : ∀ q ∈ l, p.1 < q.1) :
    (insertDesc p l).Pairwise (fun a b => b.2 ≤ a.2 ∧ (a.2 = b.2 → a.1 < b.1)) := by
  induction l with
  | nil => simp [insertDesc]
  | cons q rest ih =>
    rw [insertDesc]
    rw [List.pairwise_cons] at hl
    obtain ⟨hq, hrest⟩ := hl
    split
    · next hle =>
      rw [List.pairwise_cons]
      constructor
      · intro r hr
        rcases List.mem_cons.mp hr with rfl | hmem
        · exact ⟨hle, fun _ => hp r (List.mem_cons_self _ _)⟩
        · obtain ⟨h1, _⟩ := hq r hmem
          exact ⟨le_trans h1 hle, fun _ => hp r (List.mem_cons_of_mem _ hmem)⟩
      · rw [List.pairwise_cons]
        exact ⟨hq, hrest⟩
    · next hgt =>
      push_neg at hgt
      rw [List.pairwise_cons]
      constructor
      · intro r hr
        rcases mem_insertDesc.mp hr with rfl | hmem
        · exact ⟨le_of_lt hgt, fun h => absurd h (ne_of_gt hgt)⟩
        · exact hq r hmem
      · exact ih hrest (fun r hr => hp r (List.mem_cons_of_mem _ hr))

lemma pairwise_sortDesc {l : List (Nat × ℚ)} (h : l.Pairwise (fun a b => a.1 < b.1)) :
    (sortDesc l).Pairwise (fun a b => b.2 ≤ a.2 ∧ (a.2 = b.2 → a.1 < b.1)) := by
  induction l with
  | nil => simp [sortDesc]
  | cons p rest ih =>
    rw [List.pairwise_cons] at h
    obtain ⟨hp, hrest⟩ := h
    rw [sortDesc]
    exact pairwise_insertDesc (ih hrest) (fun q hq => hp q (mem_sortDesc.mp hq))

lemma mem_range_drop_one {n i : Nat} (h : i ∈ (List.range n).drop 1) : 1 ≤ i ∧ i < n := by
  cases n with
  | zero => cases h
  | succ m =>
    rw [List.range_succ_eq_map] at h
    simp only [List.drop_succ_cons, List.drop_zero] at h
    obtain ⟨j, hj, rfl⟩ := List.mem_map.mp h
    exact ⟨Nat.succ_le_succ (Nat.zero_le j), Nat.succ_lt_succ (List.mem_range.mp hj)⟩

lemma ranked_pairs_mem {n : Nat} {sim : Nat → ℚ} {p : Nat × ℚ} (h : p ∈ ranked_pairs n sim) :
    1 ≤ p.1 ∧ p.1 < n := by
  rw [ranked_pairs, mem_sortDesc, ← List.map_drop] at h
  obtain ⟨i, hi, rfl⟩ := List.mem_map.mp h
  exact mem_range_drop_one hi

lemma length_ranked_pairs (n : Nat) (sim : Nat → ℚ) : (ranked_pairs n sim).length = n - 1 := by
  rw [ranked_pairs, length_sortDesc, List.length_drop, List.length_map, List.length_range]

lemma mapM_ilocTitle_ok (titles : List String) (idxs : List Nat)
    (h : ∀ i ∈ idxs, i < titles.length) :
    idxs.mapM (fun i => ilocTitle titles i) =
      Except.ok (idxs.map (fun i => (titles[i]?).getD "")) := by
  induction idxs with
  | nil => rfl
  | cons i is ih =>
    rw [List.mapM_cons]
    have hi := h i (List.mem_cons_self _ _)
    have h1 : ilocTitle titles i = Except.ok ((titles[i]?).getD "") := by
      rw [ilocTitle, List.getElem?_eq_getElem hi]
      rfl
    rw [h1, except_ok_bind, ih (fun j hj => h j (List.mem_cons_of_mem _ hj)), except_ok_bind]
    rfl

lemma pySliceTo_subset {α : Type} (k : Int) (l : List α) : ∀ a ∈ pySliceTo k l, a ∈ l := by
  intro a ha
  rw [pySliceTo] at ha
  split at ha
  · exact List.take_subset _ _ ha
  · exact List.take_subset _ _ ha

lemma rank_eq (titles : List String) (sim : Nat → ℚ) (k : Int) :
    rank titles sim k =
      Except.ok ((pySliceTo k (ranked_pairs titles.length sim)).map
        (fun p => (titles[p.1]?).getD "")) := by
  rw [rank]
  have hlt : ∀ i ∈ (pySliceTo k (ranked_pairs titles.length sim)).map (fun p => p.1),
      i < titles.length := by
    intro i hi
    obtain ⟨p, hp, rfl⟩ := List.mem_map.mp hi
    exact (ranked_pairs_mem (pySliceTo_subset k _ p hp)).2
  rw [mapM_ilocTitle_ok _ _ hlt, List.map_map]
  rfl

lemma rank_zero (titles : List String) (sim : Nat → ℚ) :
    rank titles sim 0 = Except.ok [] := by
  rw [rank_eq]
  simp [pySliceTo]

lemma extract_ok_of_wf {d : MovieDetails} {c : MovieCredits} {k : MovieKeywords}
    (hd : WFDetails d) (hc : WFCredits c) (hk : WFKeywords k) :
    ∃ s, extract_features d c k = Except.ok s := by
  obtain ⟨gs, hgs⟩ := mapM_name_ok _ hd
  obtain ⟨cs, hcs⟩ := mapM_name_ok _ hc.1
  obtain ⟨dirs, hdirs⟩ := directorNames_ok hc.2
  obtain ⟨ks, hks⟩ := mapM_name_ok _ hk
  refine ⟨String.intercalate " " (gs.map normalizeToken ++ cs.map normalizeToken ++
    (if dirs.headD "" = "" then [] else [normalizeToken (dirs.headD "")]) ++
    ks.map normalizeToken), ?_⟩
  simp only [extract_features, hgs, hcs, hdirs, hks]

lemma build_ok_of_wf {gw : Gateway} (hwf : WFGateway gw) :
    ∀ l, ∃ mds, build_movie_data gw l = Except.ok mds := by
  intro l
  induction l with
  | nil => exact ⟨[], rfl⟩
  | cons m rest ih =>
    obtain ⟨mid, mtitle⟩ := m
    obtain ⟨mds, hmds⟩ := ih
    cases hd : gw.details mid with
    | none => exact ⟨mds, by simp only [build_movie_data, hd, hmds]⟩
    | some d =>
      cases hc : gw.credits mid with
      | none => exact ⟨mds, by simp only [build_movie_data, hd, hc, hmds]⟩
      | some c =>
        cases hk : gw.keywords mid with
        | none => exact ⟨mds, by simp only [build_movie_data, hd, hc, hk, hmds]⟩
        | some k =>
          obtain ⟨s, hs⟩ := extract_ok_of_wf (hwf.details _ _ hd) (hwf.credits _ _ hc)
            (hwf.keywords _ _ hk)
          by_cases hse : s = ""
          · exact ⟨mds, by simp only [build_movie_data, hd, hc, hk, hs, hmds, if_pos hse]⟩
          · exact ⟨⟨mid, mtitle, s⟩ :: mds,
              by simp only [build_movie_data, hd, hc, hk, hs, hmds, if_neg hse]⟩

lemma build_movie_data_ids {gw : Gateway} :
    ∀ {l : List (Int × String)} {mds : List MovieData},
      build_movie_data gw l = Except.ok mds → ∀ md ∈ mds, md.id ∈ l.map Prod.fst := by
  intro l
  induction l with
  | nil =>
    intro mds h md hmd
    have hmds : mds = [] := (Except.ok.inj h).symm
    subst hmds
    cases hmd
  | cons m rest ih =>
    obtain ⟨mid, mtitle⟩ := m
    intro mds h md hmd
    cases hd : gw.details mid with
    | none =>
      simp only [build_movie_data, hd] at h
      exact List.mem_cons_of_mem _ (ih h md hmd)
    | some d =>
      cases hc : gw.credits mid with
      | none =>
        simp only [build_movie_data, hd, hc] at h
        exact List.mem_cons_of_mem _ (ih h md hmd)
      | some c =>
        cases hk : gw.keywords mid with
        | none =>
          simp only [build_movie_data, hd, hc, hk] at h
          exact List.mem_cons_of_mem _ (ih h md hmd)
        | some k =>
          cases he : extract_features d c k with
          | error e =>
            simp only [build_movie_data, hd, hc, hk, he] at h
            exact Except.noConfusion h
          | ok features =>
            cases hb : build_movie_data gw rest with
            | error e =>
              simp only [build_movie_data, hd, hc, hk, he, hb] at h
              exact Except.noConfusion h
            | ok mds0 =>
              simp only [build_movie_data, hd, hc, hk, he, hb] at h
              by_cases hse : features = ""
              · rw [if_pos hse] at h
                have : mds = mds0 := (Except.ok.inj h).symm
                subst this
                exact List.mem_cons_of_mem _ (ih hb md hmd)
              · rw [if_neg hse] at h
                have : mds = ⟨mid, mtitle, features⟩ :: mds0 := (Except.ok.inj h).symm
                subst this
                rcases List.mem_cons.mp hmd with rfl | hmem
                · exact List.mem_cons_self _ _
                · exact List.mem_cons_of_mem _ (ih hb md hmem)

lemma get_rec_shape {gw : Gateway} (sim : Nat → ℚ) (k : Int) (maxr : Nat)
    (hwf : WFGateway gw) :
    get_recommendations gw sim k maxr = Except.ok [] ∨
    ∃ titles, get_recommendations gw sim k maxr = rank titles sim k := by
  cases hs : search_movie gw with
  | none => exact Or.inl (by simp only [get_recommendations, hs])
  | some r =>
    obtain ⟨fid, ftitle⟩ := r
    by_cases h0 : fid = 0
    · exact Or.inl (by simp only [get_recommendations, hs, if_pos h0])
    · cases hd : gw.details fid with
      | none => exact Or.inl (by simp only [get_recommendations, hs, if_neg h0, hd])
      | some fd =>
        cases hc : gw.credits fid with
        | none => exact Or.inl (by simp only [get_recommendations, hs, if_neg h0, hd, hc])
        | some fc =>
          cases hk : gw.keywords fid with
          | none =>
            exact Or.inl (by simp only [get_recommendations, hs, if_neg h0, hd, hc, hk])
          | some fk =>
            obtain ⟨s, hex⟩ := extract_ok_of_wf (hwf.details _ _ hd) (hwf.credits _ _ hc)
              (hwf.keywords _ _ hk)
            by_cases hse : s = ""
            · exact Or.inl (by
                simp only [get_recommendations, hs, if_neg h0, hd, hc, hk, hex, if_pos hse])
            · by_cases hpool : candidate_pool gw maxr fid = []
              · exact Or.inl (by
                  simp only [get_recommendations, hs, if_neg h0, hd, hc, hk, hex, if_neg hse,
                    if_pos hpool])
              · obtain ⟨mds, hmds⟩ := build_ok_of_wf hwf (candidate_pool gw maxr fid)
                by_cases hmde : mds = []
                · exact Or.inl (by
                    simp only [get_recommendations, hs, if_neg h0, hd, hc, hk, hex, if_neg hse,
                      if_neg hpool, hmds, if_pos hmde])
                · exact Or.inr ⟨(mkCorpus ⟨fid, ftitle, s⟩ mds).map (fun m => m.title), by
                    simp only [get_recommendations, hs, if_neg h0, hd, hc, hk, hex, if_neg hse,
                      if_neg hpool, hmds, if_neg hmde]⟩

lemma normalizeToken_empty : normalizeToken "" = "" := rfl

lemma sampleGateway_wf : WFGateway sampleGateway := by
  refine ⟨?_, ?_, ?_⟩
  · intro i d h
    simp only [sampleGateway] at h
    split at h
    · cases Option.some.inj h
      decide
    · split at h
      · cases Option.some.inj h
        decide
      · cases h
  · intro i c h
    simp only [sampleGateway] at h
    split at h
    · cases Option.some.inj h
      decide
    · cases h
  · intro i k h
    simp only [sampleGateway] at h
    split at h
    · cases Option.some.inj h
      decide
    · cases h

/-- Claim C2: the bundle with genres `Science Fiction`, cast `Tom Hardy`,
crew `Christopher Nolan`/`Director` and keyword `dream` extracts to exactly
`"sciencefiction tomhardy christophernolan dream"` (genres, first-3 cast,
first Director, keywords, normalized and space-joined in that fixed
order). -/
theorem extract_scenario_tokens :
    extract_features ⟨some [⟨some "Science Fiction"⟩]⟩
      ⟨some [⟨some "Tom Hardy"⟩], some [⟨some "Christopher Nolan", some "Director"⟩]⟩
      ⟨some [⟨some "dream"⟩]⟩ =
      Except.ok "sciencefiction tomhardy christophernolan dream" := by
  rfl

/-- Claim C1: for every Gateway whose responses conform to the §3/§4.4
response shapes — including failed calls, an empty search result,
`maxCandidates = 0`, and pools that filter to empty — `get_recommendations`
returns an ordered title list (possibly empty) and never lets an exception
escape (the result is always `Except.ok`). -/
theorem get_recommendations_total (gw : Gateway) (sim : Nat → ℚ) (k : Int) (maxr : Nat)
    (hwf : WFGateway gw) :
    ∃ l, get_recommendations gw sim k maxr = Except.ok l := by
  rcases get_rec_shape sim k maxr hwf with h | ⟨titles, h⟩
  · exact ⟨[], h⟩
  · rw [h, rank_eq]
    exact ⟨_, rfl⟩

theorem get_recommendations_total_witness :
    ∃ l, get_recommendations sampleGateway (fun _ => 0) 5 100 = Except.ok l :=
  get_recommendations_total sampleGateway (fun _ => 0) 5 100 sampleGateway_wf

/-- Claim C3 (amended): missing top-level keys (`genres`, `cast`, `crew`,
`keywords`) default to empty lists and never raise; `extract_features`
returns a string whenever every inspected entry carries the keys the
extractor reads.  (A missing `name`/`job` inside an inspected entry does
raise — see the counterexample.) -/
theorem extract_defensive_wf (d : MovieDetails) (c : MovieCredits) (k : MovieKeywords)
    (hd : WFDetails d) (hc : WFCredits c) (hk : WFKeywords k) :
    ∃ s, extract_features d c k = Except.ok s :=
  extract_ok_of_wf hd hc hk

theorem extract_defensive_wf_witness :
    ∃ s, extract_features ⟨none⟩ ⟨none, none⟩ ⟨none⟩ = Except.ok s :=
  extract_defensive_wf ⟨none⟩ ⟨none, none⟩ ⟨none⟩ (by decide) (by decide) (by decide)

/-- Claim C3 counterexample: a crew entry without a `job` key makes
`extract_features` raise (`c['job']` is a bare dict access), so missing
keys inside entries are not treated as empty lists. -/
theorem extract_missing_inner_key_raises :
    extract_features ⟨some []⟩ ⟨some [], some [⟨none, none⟩]⟩ ⟨some []⟩ =
      Except.error () := by
  rfl

/-- Claim C4 (amended): the extracted token text is empty only if every
available token source normalizes to the empty string — every genre name,
every name among the first three cast entries, the first Director's name,
and every keyword name consist solely of space characters (in particular
when no such items exist at all). -/
theorem tokenText_empty_only_if_all_blank (d : MovieDetails) (c : MovieCredits)
    (kw : MovieKeywords) (s : String) (hok : extract_features d c kw = Except.ok s)
    (hs : s = "") :
    (∀ g ∈ d.genres.getD [], ∀ nm, g.name = some nm → normalizeToken nm = "") ∧
    (∀ e ∈ (c.cast.getD []).take 3, ∀ nm, e.name = some nm → normalizeToken nm = "") ∧
    (∀ ds, directorNames (c.crew.getD []) = Except.ok ds →
      normalizeToken (ds.headD "") = "") ∧
    (∀ e ∈ kw.keywords.getD [], ∀ nm, e.name = some nm → normalizeToken nm = "") := by
  subst hs
  cases hg : ((d.genres.getD []).mapM fun g => keyOf g.name) with
  | error e =>
    simp only [extract_features, hg] at hok
    exact Except.noConfusion hok
  | ok gs =>
  cases hcx : (((c.cast.getD []).take 3).mapM fun e => keyOf e.name) with
  | error e =>
    simp only [extract_features, hg, hcx] at hok
    exact Except.noConfusion hok
  | ok cs =>
  cases hdir : directorNames (c.crew.getD []) with
  | error e =>
    simp only [extract_features, hg, hcx, hdir] at hok
    exact Except.noConfusion hok
  | ok dirs =>
  cases hkw : ((kw.keywords.getD []).mapM fun e => keyOf e.name) with
  | error e =>
    simp only [extract_features, hg, hcx, hdir, hkw] at hok
    exact Except.noConfusion hok
  | ok ks =>
    simp only [extract_features, hg, hcx, hdir, hkw] at hok
    have hemp := intercalate_eq_empty (Except.ok.inj hok)
    refine ⟨?_, ?_, ?_, ?_⟩
    · intro g hg2 nm hnm
      refine hemp _ ?_
      have h1 : normalizeToken nm ∈ gs.map normalizeToken :=
        List.mem_map_of_mem _ (mapM_name_names hg g hg2 nm hnm)
      simp only [List.mem_append]
      tauto
    · intro e he nm hnm
      refine hemp _ ?_
      have h1 : normalizeToken nm ∈ cs.map normalizeToken :=
        List.mem_map_of_mem _ (mapM_name_names hcx e he nm hnm)
      simp only [List.mem_append]
      tauto
    · intro ds hds
      have hde : ds = dirs := (Except.ok.inj hds).symm
      subst hde
      by_cases hhd : ds.headD "" = ""
      · rw [hhd, normalizeToken_empty]
      · refine hemp _ ?_
        have h1 : normalizeToken (ds.headD "") ∈
            (if ds.headD "" = "" then [] else [normalizeToken (ds.headD "")]) := by
          rw [if_neg hhd]
          exact List.mem_singleton_self _
        simp only [List.mem_append]
        tauto
    · intro e he nm hnm
      refine hemp _ ?_
      have h1 : normalizeToken nm ∈ ks.map normalizeToken :=
        List.mem_map_of_mem _ (mapM_name_names hkw e he nm hnm)
      simp only [List.mem_append]
      tauto

theorem tokenText_empty_only_if_all_blank_witness :
    (∀ g ∈ ((⟨some []⟩ : MovieDetails).genres.getD []), ∀ nm, g.name = some nm →
      normalizeToken nm = "") ∧
    (∀ e ∈ (((⟨some [], some []⟩ : MovieCredits).cast.getD []).take 3), ∀ nm,
      e.name = some nm → normalizeToken nm = "") ∧
    (∀ ds, directorNames ((⟨some [], some []⟩ : MovieCredits).crew.getD []) = Except.ok ds →
      normalizeToken (ds.headD "") = "") ∧
    (∀ e ∈ ((⟨some []⟩ : MovieKeywords).keywords.getD []), ∀ nm, e.name = some nm →
      normalizeToken nm = "") :=
  tokenText_empty_only_if_all_blank ⟨some []⟩ ⟨some [], some []⟩ ⟨some []⟩ "" (by rfl) (by rfl)

/-- Claim C4 counterexample: a bundle with one genre whose name is empty
yields an empty token text even though a genre is present, refuting
"empty only if no genres, cast, director, or keywords". -/
theorem tokenText_empty_with_genre_present :
    extract_features ⟨some [⟨some ""⟩]⟩ ⟨some [], some []⟩ ⟨some []⟩ = Except.ok "" ∧
    ((⟨some [⟨some ""⟩]⟩ : MovieDetails).genres.getD []).length = 1 := by
  exact ⟨rfl, rfl⟩

/-- Claim C5: for every corpus and every requested `k ≥ 0`, `rank` returns
exactly `min(k, |corpus| - 1)` entries — all available candidates when
fewer than `k` exist, never more than `k`, with no padding and no
error. -/
theorem rank_length_min (titles : List String) (sim : Nat → ℚ) (k : Int) (hk : 0 ≤ k) :
    ∃ l, rank titles sim k = Except.ok l ∧ l.length = min k.toNat (titles.length - 1) := by
  refine ⟨_, rank_eq titles sim k, ?_⟩
  rw [List.length_map, pySliceTo, if_pos hk, List.length_take, length_ranked_pairs]

theorem rank_length_min_witness :
    ∃ l, rank ["r", "a", "b"] (fun _ => 0) 5 = Except.ok l ∧
      l.length = min (5 : Int).toNat ((["r", "a", "b"] : List String).length - 1) :=
  rank_length_min ["r", "a", "b"] (fun _ => 0) 5 (by decide)

/-- Claim C6: the ranked `(index, score)` sequence is sorted by
non-increasing similarity score, and entries with equal scores keep their
original corpus order (the descending sort is stable under ties). -/
theorem ranked_pairs_sorted_stable (n : Nat) (sim : Nat → ℚ) :
    (ranked_pairs n sim).Pairwise (fun a b => b.2 ≤ a.2 ∧ (a.2 = b.2 → a.1 < b.1)) := by
  rw [ranked_pairs]
  apply pairwise_sortDesc
  rw [← List.map_drop]
  exact List.Pairwise.map _ (fun a b h => h)
    (List.Pairwise.sublist (List.drop_sublist _ _) (List.pairwise_lt_range n))

/-- Claim C7: the reference movie occupies corpus index 0, no candidate row
carries the reference id, and the ranked indices returned to the caller
never include index 0 (the reference never appears among its own
results). -/
theorem reference_excluded (gw : Gateway) (sim : Nat → ℚ) (maxr : Nat) (fav : MovieData)
    (mds : List MovieData) (k : Int)
    (hb : build_movie_data gw (candidate_pool gw maxr fav.id) = Except.ok mds) :
    (mkCorpus fav mds)[0]? = some fav ∧
    (∀ md ∈ mds, md.id ≠ fav.id) ∧
    (∀ p ∈ pySliceTo k
        (ranked_pairs ((mkCorpus fav mds).map (fun m => m.title)).length sim),
      1 ≤ p.1) := by
  refine ⟨by simp [mkCorpus], ?_, ?_⟩
  · intro md hmd
    obtain ⟨m, hm, hme⟩ := List.mem_map.mp (build_movie_data_ids hb md hmd)
    rw [candidate_pool] at hm
    have h2 := of_decide_eq_true (List.mem_filter.mp hm).2
    exact hme ▸ h2
  · intro p hp
    exact (ranked_pairs_mem (pySliceTo_subset _ _ p hp)).1

theorem reference_excluded_witness :
    (mkCorpus ⟨1, "Fav", "drama"⟩ [⟨7, "Cand", "action"⟩])[0]? =
      some ⟨1, "Fav", "drama"⟩ ∧
    (∀ md ∈ [(⟨7, "Cand", "action"⟩ : MovieData)],
      md.id ≠ (⟨1, "Fav", "drama"⟩ : MovieData).id) ∧
    (∀ p ∈ pySliceTo 5
        (ranked_pairs ((mkCorpus ⟨1, "Fav", "drama"⟩
          [⟨7, "Cand", "action"⟩]).map (fun m => m.title)).length (fun _ => 0)),
      1 ≤ p.1) :=
  reference_excluded sampleGateway (fun _ => 0) 100 ⟨1, "Fav", "drama"⟩
    [⟨7, "Cand", "action"⟩] 5 (by rfl)

/-- Claim C8 (amended): the candidate pool excludes the reference id, but
it is not deduplicated — an id repeated across popular pages stays
repeated (see the counterexample). -/
theorem candidate_pool_excludes_reference (gw : Gateway) (maxr : Nat) (favId : Int) :
    ∀ m ∈ candidate_pool gw maxr favId, m.1 ≠ favId := by
  intro m hm
  rw [candidate_pool] at hm
  exact of_decide_eq_true (List.mem_filter.mp hm).2

theorem candidate_pool_excludes_reference_witness : ((7, "Cand") : Int × String).1 ≠ 1 :=
  candidate_pool_excludes_reference sampleGateway 100 1 (7, "Cand") (by decide)

/-- Claim C8 counterexample: with the same movie id listed on two popular
pages, the assembled pool contains the id twice — the pool is not
deduplicated. -/
theorem candidate_pool_duplicates :
    (candidate_pool dupPagesGateway 2 1).map Prod.fst = [7, 7] ∧
    ¬ ((candidate_pool dupPagesGateway 2 1).map Prod.fst).Nodup := by
  constructor
  · rfl
  · decide

/-- Claim C9: every output of the token normalizer (lowercase, then remove
spaces) contains no space character and no uppercase letter. -/
theorem normalizeToken_no_space_no_upper (s : String) :
    ∀ c ∈ (normalizeToken s).data, c ≠ ' ' ∧ c.isUpper = false := by
  intro c hc
  have hc2 : c ∈ (s.data.map Char.toLower).filter (fun ch => decide (ch ≠ ' ')) := hc
  obtain ⟨hmap, hne⟩ := List.mem_filter.mp hc2
  obtain ⟨x, hx, rfl⟩ := List.mem_map.mp hmap
  exact ⟨of_decide_eq_true hne, toLower_isUpper_false x⟩

theorem normalizeToken_no_space_no_upper_witness :
    'a' ∈ (normalizeToken "A b").data ∧ ('a' ≠ ' ' ∧ Char.isUpper 'a' = false) :=
  ⟨by decide, normalizeToken_no_space_no_upper "A b" 'a' (by decide)⟩

/-- Claim C10: the top-k selection follows Python slice semantics for
non-positive `num_recommendations`: with `0` the pipeline returns the
empty list, and with a negative bound the slice keeps all ranked
candidates except the last `|k|` of them. -/
theorem slice_semantics_nonpositive :
    (∀ (gw : Gateway) (sim : Nat → ℚ) (maxr : Nat), WFGateway gw →
      get_recommendations gw sim 0 maxr = Except.ok []) ∧
    (∀ (titles : List String) (sim : Nat → ℚ) (k : Int), k < 0 →
      ∃ full, rank titles sim (titles.length : Int) = Except.ok full ∧
        rank titles sim k = Except.ok (full.take (full.length - (-k).toNat))) := by
  constructor
  · intro gw sim maxr hwf
    rcases get_rec_shape sim 0 maxr hwf with h | ⟨titles, h⟩
    · exact h
    · rw [h, rank_zero]
  · intro titles sim k hk
    refine ⟨(ranked_pairs titles.length sim).map (fun p => (titles[p.1]?).getD ""), ?_, ?_⟩
    · rw [rank_eq]
      congr 1
      rw [pySliceTo, if_pos (by positivity : (0 : Int) ≤ (titles.length : Int))]
      rw [Int.toNat_ofNat]
      exact congrArg _ (List.take_of_length_le (by rw [length_ranked_pairs]; omega))
    · rw [rank_eq]
      rw [pySliceTo, if_neg (by omega : ¬ (0 : Int) ≤ k)]
      rw [List.map_take, List.length_map]

theorem slice_semantics_nonpositive_witness :
    get_recommendations sampleGateway (fun _ => 0) 0 100 = Except.ok [] ∧
    (∃ full, rank ["r", "a", "b"] (fun _ => 0)
        ((["r", "a", "b"] : List String).length : Int) = Except.ok full ∧
      rank ["r", "a", "b"] (fun _ => 0) (-1) =
        Except.ok (full.take (full.length - 1))) :=
  ⟨slice_semantics_nonpositive.1 sampleGateway (fun _ => 0) 100 sampleGateway_wf,
   slice_semantics_nonpositive.2 ["r", "a", "b"] (fun _ => 0) (-1) (by decide)⟩
